import Mathlib

/-!
Verification of the cloudwatcher log-watching tool (src/main.rs).

The embedding models the core pipeline:
* `FilteredLogEvent` — a raw event from the log service response, with every
  field optional, as in the AWS `FilteredLogEvent` type.
* `convertEvent` / `convertEvents` / `get_group_events` — the adapter in
  `get_group_events` (main.rs lines 64-94): defaults for missing fields,
  message trimming, and the `OffsetDateTime::from_unix_timestamp_nanos(..)
  .expect(..)` conversion whose panic is modelled by `Option.none`.
* `dedupEvents` / `processTick` / `runTicks` — the watch loop in
  `watch_log_groups` (main.rs lines 114-155): the `HashSet` of seen event
  ids is modelled as a `List String` with membership-checked insertion;
  a failed per-group query (`result.unwrap_or_default()`) is an
  `Option.none` entry in the tick's result list; the stable
  `Vec::sort_by . timestamp.cmp` is modelled by `List.mergeSort`.
* `classifyMessage` — the severity styling chain (main.rs lines 136-144).
* `start_time` — the lookback computation (main.rs lines 115-116).

Timestamps are nanoseconds since the Unix epoch as `Int`; the `time` crate
range restriction on `OffsetDateTime` is the interval
[`minValidNanos`, `maxValidNanos`].
-/

namespace Cloudwatcher

/-- One log line, as held by the watch loop: `struct LogEvent` in main.rs.
The `timestamp` is nanoseconds since the Unix epoch (the `OffsetDateTime`
value produced by the adapter). -/
structure LogEvent where
  event_id : String
  group : String
  timestamp : Int
  message : String
deriving DecidableEq

/-- A raw event of a `filter_log_events` response: every field the service
may omit is optional (`event_id`, `timestamp` in milliseconds, `message`). -/
structure FilteredLogEvent where
  event_id : Option String
  timestamp : Option Int
  message : Option String
deriving DecidableEq

/-- Smallest nanosecond value representable by the `time` crate's
`OffsetDateTime` (corresponding to -9999-01-01T00:00:00Z). -/
def minValidNanos : Int := -377705116800000000000

/-- Largest nanosecond value representable by the `time` crate's
`OffsetDateTime` (corresponding to +9999-12-31T23:59:59.999999999Z). -/
def maxValidNanos : Int := 253402300799999999999

/-- `OffsetDateTime::from_unix_timestamp_nanos`: succeeds exactly when the
nanosecond value lies in the representable range, otherwise errors (and the
adapter's `.expect` then panics). -/
def fromUnixTimestampNanos (n : Int) : Option Int :=
  if minValidNanos ≤ n ∧ n ≤ maxValidNanos then some n else none

/-- The millisecond timestamp `ms` (after the default of `0` for a missing
field) converts to an in-range `OffsetDateTime` after the `* 1_000_000`
scaling to nanoseconds. -/
def tsOkMs (ms : Int) : Prop :=
  minValidNanos ≤ ms * 1000000 ∧ ms * 1000000 ≤ maxValidNanos

instance (ms : Int) : Decidable (tsOkMs ms) := by
  unfold tsOkMs; infer_instance

/-- The per-event mapping step of `get_group_events` (main.rs lines 81-92):
missing id and message default to the empty string, a present message is
trimmed, a missing timestamp defaults to `0` ms, and the timestamp is scaled
to nanoseconds and converted; `none` models the panic of
`.expect("Failed to parse timestamp")`. -/
def convertEvent (group : String) (e : FilteredLogEvent) : Option LogEvent :=
  match fromUnixTimestampNanos (e.timestamp.getD 0 * 1000000) with
  | none => none
  | some ts =>
    some { event_id := e.event_id.getD ""
           group := group
           timestamp := ts
           message := (e.message.map String.trim).getD "" }

/-- The `map .. collect` over the whole response: a panic while converting
any single event aborts the whole mapping (`none`), it does not skip the
event. -/
def convertEvents (group : String) : List FilteredLogEvent → Option (List LogEvent)
  | [] => some []
  | e :: rest =>
    match convertEvent group e, convertEvents group rest with
    | some le, some les => some (le :: les)
    | _, _ => none

/-- `get_group_events` after a successful service call: `events` is the
response's optional event list (`res.events.unwrap_or_default()`); the outer
`Option` of the result models the timestamp-conversion panic. -/
def get_group_events (group : String) (events : Option (List FilteredLogEvent)) :
    Option (List LogEvent) :=
  convertEvents group (events.getD [])

/-- The render style chosen for a message (main.rs lines 136-144):
`info` is the blue style, `error` red, `warning` yellow, `default` unstyled. -/
inductive MessageStyle where
  | info
  | error
  | warning
  | default
deriving DecidableEq

/-- Substring search on character lists: does the haystack contain `pat` as
a contiguous run? This is Rust's `str::contains` with a string pattern. -/
def strContainsAux (pat : List Char) : List Char → Bool
  | [] => pat.isEmpty
  | c :: rest => pat.isPrefixOf (c :: rest) || strContainsAux pat rest

/-- Case-sensitive substring containment, `message.contains(pat)` in Rust. -/
def strContains (s pat : String) : Bool :=
  strContainsAux pat.toList s.toList

/-- The style classification chain of the render stage: first match wins,
in the order INFO, ERROR, WARN, default. -/
def classifyMessage (msg : String) : MessageStyle :=
  if strContains msg "INFO" then .info
  else if strContains msg "ERROR" then .error
  else if strContains msg "WARN" then .warning
  else .default

/-- The dedup step of the watch loop (main.rs lines 125-131): walk the
incoming events in arrival order; an event whose id is already in the seen
set is dropped, otherwise its id is inserted and the event kept.
`seen` models the `HashSet<String>` as a list of its elements. -/
def dedupEvents : List String → List LogEvent → List String × List LogEvent
  | seen, [] => (seen, [])
  | seen, e :: rest =>
    if e.event_id ∈ seen then
      dedupEvents seen rest
    else
      let p := dedupEvents (e.event_id :: seen) rest
      (p.1, e :: p.2)

/-- The per-tick result list flattened in iteration order: a failed group
query (`none`, from `result.unwrap_or_default()`) contributes no events. -/
def flattenResults (results : List (Option (List LogEvent))) : List LogEvent :=
  (results.map (fun r => r.getD [])).flatten

/-- The comparison passed to the sort, `a.timestamp.cmp(&b.timestamp)`
used ascending. -/
def tsLE (a b : LogEvent) : Bool := decide (a.timestamp ≤ b.timestamp)

/-- One tick of the watch loop after the queries return: dedup the flattened
results against `seen`, then stable-sort the survivors ascending by
timestamp (`new_events.sort_by`, main.rs line 133). Returns the grown seen
set and the list handed to the render stage. -/
def processTick (seen : List String) (results : List (Option (List LogEvent))) :
    List String × List LogEvent :=
  ((dedupEvents seen (flattenResults results)).1,
   ((dedupEvents seen (flattenResults results)).2).mergeSort tsLE)

/-- The watch loop over a finite prefix of ticks: threads the seen set
through the ticks and concatenates the rendered outputs in tick order. -/
def runTicks : List String → List (List (Option (List LogEvent))) →
    List String × List LogEvent
  | seen, [] => (seen, [])
  | seen, tick :: rest =>
    let p := processTick seen tick
    let q := runTicks p.1 rest
    (q.1, p.2 ++ q.2)

/-- The seen set after the first `k` ticks of a run. -/
def seenAfter (init : List String) (ticks : List (List (Option (List LogEvent))))
    (k : Nat) : List String :=
  (runTicks init (ticks.take k)).1

/-- `unix_timestamp()` of the `time` crate on a nanosecond instant: whole
seconds since the epoch, flooring. -/
def unixTimestamp (nanos : Int) : Int := Int.fdiv nanos 1000000000

/-- The query lower bound computed each tick (main.rs lines 115-116):
`(OffsetDateTime::now_utc() - Duration::from_secs(600)).unix_timestamp() * 1000`,
with `now` the current instant in nanoseconds since the epoch. -/
def start_time (now : Int) : Int :=
  unixTimestamp (now - 600 * 1000000000) * 1000

/-! ### Helper lemmas about the dedup step -/

theorem dedup_seen_sub (evs : List LogEvent) :
    ∀ seen : List String, seen ⊆ (dedupEvents seen evs).1 := by
  induction evs with
  | nil => intro seen; simp [dedupEvents]
  | cons a rest ih =>
    intro seen
    by_cases h : a.event_id ∈ seen
    · simpa [dedupEvents, h] using ih seen
    · simp only [dedupEvents, if_neg h]
      exact fun x hx => ih (a.event_id :: seen) (List.mem_cons_of_mem _ hx)

theorem dedup_kept_not_mem (evs : List LogEvent) :
    ∀ (seen : List String) (e : LogEvent),
      e ∈ (dedupEvents seen evs).2 → e.event_id ∉ seen := by
  induction evs with
  | nil => intro seen e he; simp [dedupEvents] at he
  | cons a rest ih =>
    intro seen e he
    by_cases h : a.event_id ∈ seen
    · exact ih seen e (by simpa [dedupEvents, h] using he)
    · simp only [dedupEvents, if_neg h] at he
      rcases List.mem_cons.mp he with rfl | he'
      · exact h
      · intro hc
        exact ih (a.event_id :: seen) e he' (List.mem_cons_of_mem _ hc)

theorem dedup_kept_mem_seen (evs : List LogEvent) :
    ∀ (seen : List String) (e : LogEvent),
      e ∈ (dedupEvents seen evs).2 → e.event_id ∈ (dedupEvents seen evs).1 := by
  induction evs with
  | nil => intro seen e he; simp [dedupEvents] at he
  | cons a rest ih =>
    intro seen e he
    by_cases h : a.event_id ∈ seen
    · simp only [dedupEvents, if_pos h] at he ⊢
      exact ih seen e he
    · simp only [dedupEvents, if_neg h] at he ⊢
      rcases List.mem_cons.mp he with rfl | he'
      · exact dedup_seen_sub rest _ (List.mem_cons_self _ _)
      · exact ih _ e he'

theorem dedup_ids_nodup (evs : List LogEvent) :
    ∀ seen : List String, ((dedupEvents seen evs).2.map LogEvent.event_id).Nodup := by
  induction evs with
  | nil => intro seen; simp [dedupEvents]
  | cons a rest ih =>
    intro seen
    by_cases h : a.event_id ∈ seen
    · simpa [dedupEvents, h] using ih seen
    · simp only [dedupEvents, if_neg h, List.map_cons, List.nodup_cons]
      refine ⟨fun hmem => ?_, ih _⟩
      rcases List.mem_map.mp hmem with ⟨e, he, hid⟩
      exact dedup_kept_not_mem rest _ e he (by rw [hid]; exact List.mem_cons_self _ _)

theorem dedup_kept_sublist (evs : List LogEvent) :
    ∀ seen : List String, List.Sublist (dedupEvents seen evs).2 evs := by
  induction evs with
  | nil => intro seen; simp [dedupEvents]
  | cons a rest ih =>
    intro seen
    by_cases h : a.event_id ∈ seen
    · simp only [dedupEvents, if_pos h]
      exact (ih seen).cons a
    · simp only [dedupEvents, if_neg h]
      exact (ih (a.event_id :: seen)).cons₂ a

/-! ### Helper lemmas about ticks and runs -/

theorem tsLE_trans : ∀ a b c : LogEvent, tsLE a b → tsLE b c → tsLE a c := by
  intro a b c hab hbc
  simp only [tsLE, decide_eq_true_eq] at *
  omega

theorem tsLE_total : ∀ a b : LogEvent, tsLE a b || tsLE b a := by
  intro a b
  simp only [tsLE, Bool.or_eq_true, decide_eq_true_eq]
  omega

theorem processTick_seen_sub (seen : List String)
    (rs : List (Option (List LogEvent))) : seen ⊆ (processTick seen rs).1 :=
  dedup_seen_sub _ seen

theorem processTick_mem_out (seen : List String) (rs : List (Option (List LogEvent)))
    (e : LogEvent) (he : e ∈ (processTick seen rs).2) :
    e ∈ (dedupEvents seen (flattenResults rs)).2 := by
  simpa [processTick] using he

theorem processTick_out_not_mem (seen : List String) (rs : List (Option (List LogEvent)))
    (e : LogEvent) (he : e ∈ (processTick seen rs).2) : e.event_id ∉ seen :=
  dedup_kept_not_mem _ seen e (processTick_mem_out seen rs e he)

theorem processTick_out_mem_seen (seen : List String) (rs : List (Option (List LogEvent)))
    (e : LogEvent) (he : e ∈ (processTick seen rs).2) :
    e.event_id ∈ (processTick seen rs).1 :=
  dedup_kept_mem_seen _ seen e (processTick_mem_out seen rs e he)

theorem processTick_ids_nodup (seen : List String)
    (rs : List (Option (List LogEvent))) :
    ((processTick seen rs).2.map LogEvent.event_id).Nodup :=
  (((List.mergeSort_perm (dedupEvents seen (flattenResults rs)).2 tsLE).map
    LogEvent.event_id).nodup_iff).mpr (dedup_ids_nodup _ seen)

theorem runTicks_seen_sub (ticks : List (List (Option (List LogEvent)))) :
    ∀ seen : List String, seen ⊆ (runTicks seen ticks).1 := by
  induction ticks with
  | nil => intro seen; simp [runTicks]
  | cons t rest ih =>
    intro seen
    simp only [runTicks]
    exact fun x hx => ih _ (processTick_seen_sub seen t hx)

theorem runTicks_out_spec (ticks : List (List (Option (List LogEvent)))) :
    ∀ seen : List String,
      (∀ e ∈ (runTicks seen ticks).2,
        e.event_id ∉ seen ∧ e.event_id ∈ (runTicks seen ticks).1) ∧
      ((runTicks seen ticks).2.map LogEvent.event_id).Nodup := by
  induction ticks with
  | nil => intro seen; simp [runTicks]
  | cons t rest ih =>
    intro seen
    simp only [runTicks]
    constructor
    · intro e he
      rcases List.mem_append.mp he with h1 | h2
      · refine ⟨processTick_out_not_mem _ _ e h1, ?_⟩
        exact runTicks_seen_sub rest _ (processTick_out_mem_seen _ _ e h1)
      · obtain ⟨hnot, hmem⟩ := (ih (processTick seen t).1).1 e h2
        exact ⟨fun hc => hnot (processTick_seen_sub seen t hc), hmem⟩
    · rw [List.map_append, List.nodup_append]
      refine ⟨processTick_ids_nodup seen t, (ih _).2, ?_⟩
      intro x hx1 hx2
      rcases List.mem_map.mp hx1 with ⟨e1, he1, hid1⟩
      rcases List.mem_map.mp hx2 with ⟨e2, he2, hid2⟩
      have h1 : x ∈ (processTick seen t).1 :=
        hid1 ▸ processTick_out_mem_seen seen t e1 he1
      have h2 := ((ih (processTick seen t).1).1 e2 he2).1
      rw [hid2] at h2
      exact h2 h1

theorem runTicks_append_fst (t1 : List (List (Option (List LogEvent)))) :
    ∀ (seen : List String) (t2 : List (List (Option (List LogEvent)))),
      (runTicks seen (t1 ++ t2)).1 = (runTicks (runTicks seen t1).1 t2).1 := by
  induction t1 with
  | nil => intro seen t2; simp [runTicks]
  | cons t rest ih =>
    intro seen t2
    simp only [List.cons_append, runTicks]
    exact ih _ t2

/-! ### Helper lemmas about the adapter -/

theorem convertEvent_of_tsOk (group : String) (e : FilteredLogEvent)
    (h : tsOkMs (e.timestamp.getD 0)) :
    convertEvent group e =
      some { event_id := e.event_id.getD ""
             group := group
             timestamp := e.timestamp.getD 0 * 1000000
             message := (e.message.map String.trim).getD "" } := by
  have h' : minValidNanos ≤ e.timestamp.getD 0 * 1000000 ∧
      e.timestamp.getD 0 * 1000000 ≤ maxValidNanos := h
  unfold convertEvent fromUnixTimestampNanos
  rw [if_pos h']

theorem convertEvent_of_bad_ts (group : String) (e : FilteredLogEvent)
    (h : ¬ tsOkMs (e.timestamp.getD 0)) : convertEvent group e = none := by
  have h' : ¬ (minValidNanos ≤ e.timestamp.getD 0 * 1000000 ∧
      e.timestamp.getD 0 * 1000000 ≤ maxValidNanos) := h
  unfold convertEvent fromUnixTimestampNanos
  rw [if_neg h']

theorem convertEvents_ok (group : String) :
    ∀ events : List FilteredLogEvent,
      (∀ e ∈ events, tsOkMs (e.timestamp.getD 0)) →
      convertEvents group events =
        some (events.map fun e =>
          { event_id := e.event_id.getD ""
            group := group
            timestamp := e.timestamp.getD 0 * 1000000
            message := (e.message.map String.trim).getD "" }) := by
  intro events
  induction events with
  | nil => intro _; simp [convertEvents]
  | cons e rest ih =>
    intro h
    have he := convertEvent_of_tsOk group e (h e (List.mem_cons_self _ _))
    have hrest := ih fun x hx => h x (List.mem_cons_of_mem _ hx)
    simp only [convertEvents, he, hrest, List.map_cons]

theorem convertEvents_none (group : String) :
    ∀ events : List FilteredLogEvent, ∀ e ∈ events,
      convertEvent group e = none → convertEvents group events = none := by
  intro events
  induction events with
  | nil => intro e he; simp at he
  | cons a rest ih =>
    intro e he hnone
    rcases List.mem_cons.mp he with rfl | he'
    · simp [convertEvents, hnone]
    · simp only [convertEvents, ih e he' hnone]
      cases convertEvent group a <;> rfl

/-! ### Claim theorems -/

/-- C1: over any number of ticks of the watch loop, with any per-group
results (including repeats across overlapping lookback windows and across
groups), each event id appears at most once in the whole rendered output of
the run: the global seen set makes the rendered ids duplicate-free. -/
theorem dedup_renders_each_id_at_most_once
    (ticks : List (List (Option (List LogEvent)))) :
    ((runTicks [] ticks).2.map LogEvent.event_id).Nodup :=
  (runTicks_out_spec ticks []).2

/-- C2: in any one tick, the list handed to rendering is non-decreasing by
timestamp, and the sort is stable: for every timestamp value, the events
carrying it appear in the same order as in the deduplicated arrival-order
list. -/
theorem tick_output_sorted_and_stable (seen : List String)
    (results : List (Option (List LogEvent))) :
    List.Pairwise (fun a b => a.timestamp ≤ b.timestamp) (processTick seen results).2 ∧
    ∀ t : Int,
      (processTick seen results).2.filter (fun e => decide (e.timestamp = t)) =
      (dedupEvents seen (flattenResults results)).2.filter
        (fun e => decide (e.timestamp = t)) := by
  constructor
  · refine (List.sorted_mergeSort tsLE_trans tsLE_total
      (dedupEvents seen (flattenResults results)).2).imp ?_
    intro a b h
    simpa [tsLE] using h
  · intro t
    have hfil : ∀ x ∈ (dedupEvents seen (flattenResults results)).2.filter
        (fun e => decide (e.timestamp = t)), x.timestamp = t := by
      intro x hx
      exact of_decide_eq_true (List.mem_filter.mp hx).2
    have hpw : ((dedupEvents seen (flattenResults results)).2.filter
        (fun e => decide (e.timestamp = t))).Pairwise (fun a b => tsLE a b = true) := by
      apply List.pairwise_of_forall_mem_list
      intro a ha b hb
      simp [tsLE, hfil a ha, hfil b hb]
    have hst := List.sublist_mergeSort tsLE_trans tsLE_total hpw
      (List.filter_sublist (dedupEvents seen (flattenResults results)).2)
    have hsf := hst.filter (fun e => decide (e.timestamp = t))
    rw [List.filter_eq_self.mpr
      (fun a ha => (List.mem_filter.mp ha).2)] at hsf
    have hperm := (List.mergeSort_perm
      (dedupEvents seen (flattenResults results)).2 tsLE).filter
      (fun e => decide (e.timestamp = t))
    have := hsf.eq_of_length hperm.length_eq.symm
    simpa [processTick] using this.symm

/-- C3: the render style is chosen by case-sensitive substring matching with
first-match priority INFO, then ERROR, then WARN, then default; in
particular a message containing both INFO and ERROR is styled as info. -/
theorem classification_first_match (msg : String) :
    (strContains msg "INFO" = true → classifyMessage msg = MessageStyle.info) ∧
    (strContains msg "INFO" = false → strContains msg "ERROR" = true →
      classifyMessage msg = MessageStyle.error) ∧
    (strContains msg "INFO" = false → strContains msg "ERROR" = false →
      strContains msg "WARN" = true → classifyMessage msg = MessageStyle.warning) ∧
    (strContains msg "INFO" = false → strContains msg "ERROR" = false →
      strContains msg "WARN" = false → classifyMessage msg = MessageStyle.default) :=
  ⟨fun h1 => by simp [classifyMessage, h1],
   fun h1 h2 => by simp [classifyMessage, h1, h2],
   fun h1 h2 h3 => by simp [classifyMessage, h1, h2, h3],
   fun h1 h2 h3 => by simp [classifyMessage, h1, h2, h3]⟩

/-- C4: a failed query for one group in a tick contributes zero events and
the tick behaves exactly as if the remaining groups were processed alone:
the seen set and the rendered, merged output are unchanged. -/
theorem failed_group_isolated (seen : List String)
    (a b : List (Option (List LogEvent))) :
    processTick seen (a ++ none :: b) = processTick seen (a ++ b) := by
  simp [processTick, flattenResults]

/-- C5: for a response whose timestamps (after the `0` default for a missing
one) are representable, the adapter returns an event for every raw event,
populating all four fields: missing id and message default to the empty
string, a present message is trimmed, a missing timestamp becomes the epoch
fallback, and the group field is the queried group name. Absent optional
fields alone never cause a failure. -/
theorem adapter_populates_fields (group : String) (events : List FilteredLogEvent)
    (h : ∀ e ∈ events, tsOkMs (e.timestamp.getD 0)) :
    get_group_events group (some events) =
      some (events.map fun e =>
        { event_id := e.event_id.getD ""
          group := group
          timestamp := e.timestamp.getD 0 * 1000000
          message := (e.message.map String.trim).getD "" }) := by
  unfold get_group_events
  simpa using convertEvents_ok group events h

/-- Witness for C5: a response with one event whose id, timestamp and
message are all absent converts successfully, to the fully defaulted
event. -/
theorem adapter_populates_fields_witness :
    get_group_events "g" (some [⟨none, none, none⟩]) =
      some [{ event_id := "", group := "g", timestamp := 0, message := "" }] := by
  simpa using adapter_populates_fields "g" [⟨none, none, none⟩] (by decide)

/-- C6: an out-of-range source timestamp makes the whole per-event mapping
of `get_group_events` fail hard (the modelled panic), it does not skip the
offending event; and every in-range timestamp converts successfully, so the
failure branch is unreachable for representable timestamps. -/
theorem timestamp_conversion_fatal (group : String) (events : List FilteredLogEvent)
    (e : FilteredLogEvent) (he : e ∈ events) (hbad : ¬ tsOkMs (e.timestamp.getD 0)) :
    get_group_events group (some events) = none ∧
    ∀ ms : Int, tsOkMs ms →
      fromUnixTimestampNanos (ms * 1000000) = some (ms * 1000000) := by
  constructor
  · unfold get_group_events
    simpa using convertEvents_none group events e he
      (convertEvent_of_bad_ts group e hbad)
  · intro ms h
    have h' : minValidNanos ≤ ms * 1000000 ∧ ms * 1000000 ≤ maxValidNanos := h
    unfold fromUnixTimestampNanos
    rw [if_pos h']

/-- Witness for C6: a single event whose millisecond timestamp is
1000000000000000000 (in range for an `i64` field, far beyond the
representable `OffsetDateTime` range) makes the whole adapter call fail. -/
theorem timestamp_conversion_fatal_witness :
    get_group_events "g" (some [⟨none, some 1000000000000000000, none⟩]) = none :=
  (timestamp_conversion_fatal "g" [⟨none, some 1000000000000000000, none⟩]
    ⟨none, some 1000000000000000000, none⟩
    (List.mem_singleton_self _) (by decide)).1

/-- C7: the seen set grows monotonically over the run: after any two tick
counts `i ≤ j` of the same run, every id in the earlier set is still in the
later set; ids are only ever inserted, never removed. -/
theorem seen_set_monotone (init : List String)
    (ticks : List (List (Option (List LogEvent)))) (i j : Nat) (hij : i ≤ j) :
    seenAfter init ticks i ⊆ seenAfter init ticks j := by
  have h1 : ticks.take i = (ticks.take j).take i := by
    rw [List.take_take, Nat.min_eq_left hij]
  unfold seenAfter
  rw [← List.take_append_drop i (ticks.take j), ← h1, runTicks_append_fst]
  exact runTicks_seen_sub _ _

/-- Witness for C7: the seen set after zero ticks of a one-tick run is
contained in the seen set after that tick. -/
theorem seen_set_monotone_witness :
    seenAfter [] [[some [⟨"a", "g", 5, "m"⟩]]] 0 ⊆
      seenAfter [] [[some [⟨"a", "g", 5, "m"⟩]]] 1 :=
  seen_set_monotone [] [[some [⟨"a", "g", 5, "m"⟩]]] 0 1 (by decide)

/-- C8: the lower bound passed to every group query is the current time
minus the 600-second lookback, at whole-second precision, expressed in
milliseconds since the Unix epoch. -/
theorem lookback_lower_bound (now : Int) :
    start_time now = (unixTimestamp now - 600) * 1000 := by
  unfold start_time unixTimestamp
  have h : now - 600 * 1000000000 = now + (-600) * 1000000000 := by ring
  rw [h, Int.fdiv_eq_ediv _ (by norm_num), Int.fdiv_eq_ediv _ (by norm_num),
    Int.add_mul_ediv_right _ _ (by norm_num)]
  ring

/-- C10: a raw event with a missing id converts to the empty-string id, and
in any run at most one rendered event carries the empty-string id — every
later id-less event is suppressed as a duplicate of the first. -/
theorem missing_id_rendered_at_most_once
    (ticks : List (List (Option (List LogEvent)))) :
    (∀ (group : String) (e : FilteredLogEvent), e.event_id = none →
      ∀ le : LogEvent, convertEvent group e = some le → le.event_id = "") ∧
    ((runTicks [] ticks).2.filter (fun e => decide (e.event_id = ""))).length ≤ 1 := by
  constructor
  · intro group e hid le hle
    unfold convertEvent at hle
    cases hfu : fromUnixTimestampNanos (e.timestamp.getD 0 * 1000000) with
    | none => rw [hfu] at hle; cases hle
    | some ts =>
      rw [hfu] at hle
      cases hle
      simp [hid]
  · have hnd := (runTicks_out_spec ticks []).2
    have h1 : ((runTicks [] ticks).2.map LogEvent.event_id).count "" ≤ 1 :=
      List.nodup_iff_count_le_one.mp hnd ""
    have h2 : ((runTicks [] ticks).2.filter
        (fun e => decide (e.event_id = ""))).length =
        ((runTicks [] ticks).2.map LogEvent.event_id).count "" := by
      rw [List.count_eq_countP, List.countP_map, List.countP_eq_length_filter]
      apply congrArg List.length
      apply List.filter_congr
      intro e _
      simp [Function.comp, beq_eq_decide, eq_comm]
    rw [h2]
    exact h1

end Cloudwatcher
